import Mathlib

/-!
Verification of the Stonks portfolio valuation pipeline.

The development shallowly embeds the pure core of the repository:

* the trading calendar and the portfolio history computation from
  `src/utils/portfolioCalculations.ts` (`generateTradingDays`,
  `getDateRangeStart`, `computePortfolioHistory`, `computeAllocation`);
* the cache layer from `src/lib/db/index.ts` (`cacheCandles`,
  `getCandlesInRange`, `verifyCacheIntegrity`), with the Dexie tables
  modelled as plain lists of rows;
* the coverage validator and the generation-id supersession discipline of the
  `usePortfolioHistory` hook (`validateCacheCoverage`, `fetchHistoricalData`).

Modelling conventions, used throughout:

* A calendar date ("YYYY-MM-DD" string in the source) is represented by its day
  number, days since 1970-01-01 UTC; `formatDateString` is strictly monotone and
  injective from UTC-midnight dates to strings, and `localeCompare` on such
  strings agrees with the numeric order of day numbers, so nothing is lost.
  Millisecond timestamps (`Date.getTime()`, `holding.addedAt`) stay in
  milliseconds. The runtime is assumed to be in the UTC timezone, so
  `setHours(0,0,0,0)` flooring and `toISOString()` agree.
* JS numbers holding prices, shares and percentages are represented by `Rat`;
  all inputs in the claims are exact decimal quantities, and the claims are
  about exact arithmetic relationships.
* A JS `Map` is represented by a lookup function into `Option`; `Map.set` is
  pointwise update (later writes win), matching `Map` semantics.
* JS `Array.prototype.sort` (a stable sort) is modelled by the stable
  `List.insertionSort`.
-/

namespace Stonks

/-- Milliseconds per civil day. -/
def msPerDay : Int := 86400000

/-- Day number of a millisecond timestamp: models flooring a `Date` to midnight
(`setHours(0,0,0,0)`) and reading the date part. `Int.fdiv` floors toward
negative infinity, as calendar flooring does for pre-1970 instants. -/
def dayOfMs (ms : Int) : Int := Int.fdiv ms msPerDay

/-- UTC-midnight millisecond timestamp of a day number: models
`new Date(dateStr).getTime()` for a date-only string. -/
def dayTs (d : Int) : Int := d * msPerDay

/-- JS `Date.prototype.getDay` on a day number; day 0 (1970-01-01) was a
Thursday, i.e. weekday 4, and `Int.emod` is nonnegative for positive modulus. -/
def dayOfWeek (d : Int) : Int := (d + 4) % 7

/-- The weekday test of `generateTradingDays`: day kept unless Sunday (0) or
Saturday (6). -/
def isTradingDay (d : Int) : Bool := dayOfWeek d != 0 && dayOfWeek d != 6

/-- Closed interval of day numbers `[s, e]`, ascending; empty when `s > e`.
Models the `while (current <= end) ... current.setDate(current.getDate() + 1)`
walk. -/
def daysFromTo (s e : Int) : List Int :=
  (List.range (e + 1 - s).toNat).map (fun (i : Nat) => s + (i : Int))

/-- `generateTradingDays(startDate, endDate)` from
`src/utils/portfolioCalculations.ts`: floor both dates to midnight, walk day by
day through the inclusive interval, keep weekdays. -/
def generateTradingDays (startMs endMs : Int) : List Int :=
  (daysFromTo (dayOfMs startMs) (dayOfMs endMs)).filter isTradingDay

/-- Day number of a proleptic Gregorian civil date (Howard Hinnant's
`days_from_civil`). The result is linear in `d` with coefficient one, which is
exactly how JS `new Date(y, m, d)` normalizes an out-of-range day-of-month. -/
def daysFromCivil (y m d : Int) : Int :=
  let y2 := if m ≤ 2 then y - 1 else y
  let era := Int.fdiv y2 400
  let yoe := y2 - era * 400
  let mp := (m + 9) % 12
  let doy := Int.fdiv (153 * mp + 2) 5 + d - 1
  let doe := yoe * 365 + Int.fdiv yoe 4 - Int.fdiv yoe 100 + doy
  era * 146097 + doe - 719468

/-- Civil date (year, month 1-12, day 1-31) of a day number (Howard Hinnant's
`civil_from_days`). -/
def civilFromDays (z0 : Int) : Int × Int × Int :=
  let z := z0 + 719468
  let era := Int.fdiv z 146097
  let doe := z - era * 146097
  let yoe :=
    Int.fdiv (doe - Int.fdiv doe 1460 + Int.fdiv doe 36524 - Int.fdiv doe 146096) 365
  let y := yoe + era * 400
  let doy := doe - (365 * yoe + Int.fdiv yoe 4 - Int.fdiv yoe 100)
  let mp := Int.fdiv (5 * doy + 2) 153
  let d := doy - Int.fdiv (153 * mp + 2) 5 + 1
  let m := if mp < 10 then mp + 3 else mp - 9
  (if m ≤ 2 then y + 1 else y, m, d)

/-- JS `new Date(year, monthIndex, day)` at local midnight, as a day number:
the 0-based month index is normalized into the year first. -/
def jsMakeDay (y mIndex d : Int) : Int :=
  daysFromCivil (y + Int.fdiv mIndex 12) ((mIndex % 12) + 1) d

/-- The `DateRange` union type `'1W' | '1M' | '3M' | '6M' | '1Y' | 'ALL'`. -/
inductive DateRange
  | w1
  | m1
  | m3
  | m6
  | y1
  | all
deriving DecidableEq, Repr

/-- `getDateRangeStart(range, earliestDate)`; `today` is the day number of
`new Date()` floored to midnight, `earliestDay` the day number of the earliest
holding date. The month-based ranges use JS month arithmetic
(`new Date(y, m - k, d)`), the week range subtracts seven days of milliseconds,
and `'ALL'` returns the earliest date itself. -/
def getDateRangeStart (range : DateRange) (earliestDay today : Int) : Int :=
  let y := (civilFromDays today).1
  let m := (civilFromDays today).2.1
  let d := (civilFromDays today).2.2
  match range with
  | .w1 => today - 7
  | .m1 => jsMakeDay y (m - 1 - 1) d
  | .m3 => jsMakeDay y (m - 1 - 3) d
  | .m6 => jsMakeDay y (m - 1 - 6) d
  | .y1 => jsMakeDay (y - 1) (m - 1) d
  | .all => earliestDay

/-- A holding row (`Holding` in `src/lib/db/index.ts`); `addedAt` is a
millisecond epoch timestamp. The `id`/`portfolioId` bookkeeping fields play no
role in the claims and are omitted. -/
structure Holding where
  symbol : String
  shares : Rat
  avgCost : Rat
  addedAt : Int
deriving DecidableEq, Repr

/-- A cached daily candle (`DailyCandle` in `src/lib/db/index.ts`); the
YYYY-MM-DD date string is represented by its day number, and the `open` field
is renamed `openP` because `open` is a Lean keyword. -/
structure DailyCandle where
  symbol : String
  date : Int
  provider : String
  openP : Rat
  high : Rat
  low : Rat
  close : Rat
  volume : Option Rat
deriving DecidableEq, Repr

/-- A point of the computed history (`PortfolioHistoryPoint`). -/
structure PortfolioHistoryPoint where
  date : Int
  value : Rat
deriving DecidableEq, Repr

/-- `Map.set` on a string-keyed JS `Map`, as pointwise function update. -/
def mapSet (m : String → Option Rat) (k : String) (v : Rat) : String → Option Rat :=
  fun s => if s = k then some v else m s

/-- The per-symbol date-to-close lookup built by
`for (const candle of candles) priceMap.set(candle.date, candle.close)`;
a later candle with the same date overwrites an earlier one. -/
def buildPriceMap (candles : List DailyCandle) : Int → Option Rat :=
  candles.foldl (fun m c => fun d => if d = c.date then some c.close else m d)
    (fun _ => none)

/-- `priceMaps.get(holding.symbol)?.get(dateStr)` in `computePortfolioHistory`. -/
def priceOn (candlesBySymbol : String → Option (List DailyCandle)) (s : String)
    (d : Int) : Option Rat :=
  match candlesBySymbol s with
  | none => none
  | some cs => buildPriceMap cs d

/-- The inner loop of `computePortfolioHistory` for one trading day `d`: walk
the holdings in order; skip a holding when `holding.addedAt > dateTs`; otherwise
resolve a price, directly from the day's price map (also updating the
last-known-price carry) or, failing that, from the carry; accumulate
`shares * price` when a price resolved. Returns the day's summed value and the
updated carry map. -/
def processHoldings (cands : String → Option (List DailyCandle)) (d : Int) :
    List Holding → (String → Option Rat) → Rat × (String → Option Rat)
  | [], last => (0, last)
  | h :: rest, last =>
    if h.addedAt > dayTs d then
      processHoldings cands d rest last
    else
      match priceOn cands h.symbol d with
      | some p =>
        let res := processHoldings cands d rest (mapSet last h.symbol p)
        (h.shares * p + res.1, res.2)
      | none =>
        match last h.symbol with
        | some p =>
          let res := processHoldings cands d rest last
          (h.shares * p + res.1, res.2)
        | none => processHoldings cands d rest last

/-- The outer loop of `computePortfolioHistory`: one pass over the trading days
in order, threading the last-known-price carry map across days; a day is
emitted only when its summed value is strictly positive. -/
def historyOverDays (holdings : List Holding)
    (cands : String → Option (List DailyCandle)) :
    List Int → (String → Option Rat) → List PortfolioHistoryPoint
  | [], _ => []
  | d :: rest, last =>
    let res := processHoldings cands d holdings last
    let tail := historyOverDays holdings cands rest res.2
    if 0 < res.1 then ⟨d, res.1⟩ :: tail else tail

/-- `Math.min(...holdings.map(h => h.addedAt))`; the source dereferences this
only after its `holdings.length === 0` guard, so the value on `[]` is junk. -/
def earliestAddedMs : List Holding → Int
  | [] => 0
  | h :: t => t.foldl (fun acc x => min acc x.addedAt) h.addedAt

/-- The start day of the computed window:
`startDate = rangeStart > earliestDate ? rangeStart : earliestDate`. -/
def startDay (holdings : List Holding) (range : DateRange) (today : Int) : Int :=
  max (getDateRangeStart range (dayOfMs (earliestAddedMs holdings)) today)
    (dayOfMs (earliestAddedMs holdings))

/-- The trading days of the computed window,
`generateTradingDays(startDate, today)`. -/
def windowDays (holdings : List Holding) (range : DateRange) (today : Int) :
    List Int :=
  generateTradingDays (dayTs (startDay holdings range today)) (dayTs today)

/-- `computePortfolioHistory(holdings, candlesBySymbol, range)` from
`src/utils/portfolioCalculations.ts`; `today` is the day number of `new Date()`
floored to midnight, passed explicitly since the embedding is pure. -/
def computePortfolioHistory (holdings : List Holding)
    (candlesBySymbol : String → Option (List DailyCandle))
    (range : DateRange) (today : Int) : List PortfolioHistoryPoint :=
  if holdings = [] then []
  else if windowDays holdings range today = [] then []
  else
    historyOverDays holdings candlesBySymbol (windowDays holdings range today)
      (fun _ => none)

lemma mem_daysFromTo {s e x : Int} : x ∈ daysFromTo s e ↔ s ≤ x ∧ x ≤ e := by
  unfold daysFromTo
  simp only [List.mem_map, List.mem_range]
  constructor
  · rintro ⟨i, hi, rfl⟩
    omega
  · rintro ⟨h1, h2⟩
    exact ⟨(x - s).toNat, by omega, by omega⟩

lemma pairwise_daysFromTo (s e : Int) : List.Pairwise (· < ·) (daysFromTo s e) := by
  unfold daysFromTo
  refine List.Pairwise.map _ ?_ (List.pairwise_lt_range _)
  intro a b hab
  omega

lemma length_daysFromTo (s e : Int) : (daysFromTo s e).length = (e + 1 - s).toNat := by
  unfold daysFromTo
  simp

lemma isTradingDay_iff {d : Int} :
    isTradingDay d = true ↔ dayOfWeek d ≠ 0 ∧ dayOfWeek d ≠ 6 := by
  simp [isTradingDay]

/-- C7. Trading calendar: for all start and end dates, `generateTradingDays`
returns a strictly ascending list of days, each a non-Saturday non-Sunday day
lying in the inclusive interval of the two (midnight-floored) endpoints;
conversely every weekday of the interval is present; the count never exceeds
the number of calendar days in the interval; and the function is a pure
function of its inputs, hence deterministic and restartable. -/
theorem c7_tradingDays_spec (s e : Int) :
    (∀ d ∈ generateTradingDays s e, dayOfWeek d ≠ 0 ∧ dayOfWeek d ≠ 6)
    ∧ List.Pairwise (· < ·) (generateTradingDays s e)
    ∧ (∀ d ∈ generateTradingDays s e, dayOfMs s ≤ d ∧ d ≤ dayOfMs e)
    ∧ (∀ d : Int, dayOfMs s ≤ d → d ≤ dayOfMs e → isTradingDay d = true →
        d ∈ generateTradingDays s e)
    ∧ (generateTradingDays s e).length ≤ (dayOfMs e + 1 - dayOfMs s).toNat := by
  unfold generateTradingDays
  refine ⟨?_, ?_, ?_, ?_, ?_⟩
  · intro d hd
    exact isTradingDay_iff.mp (List.mem_filter.mp hd).2
  · exact (pairwise_daysFromTo _ _).filter _
  · intro d hd
    exact mem_daysFromTo.mp (List.mem_filter.mp hd).1
  · intro d h1 h2 h3
    exact List.mem_filter.mpr ⟨mem_daysFromTo.mpr ⟨h1, h2⟩, h3⟩
  · calc (List.filter isTradingDay (daysFromTo (dayOfMs s) (dayOfMs e))).length
        ≤ (daysFromTo (dayOfMs s) (dayOfMs e)).length := List.length_filter_le _ _
      _ = _ := length_daysFromTo _ _

/-- Witness for C7 at a concrete window: in the window from 1970-01-01
(Thursday, day 0, timestamp 0) through 1970-01-07 (day 6, timestamp 518400000),
day 1 (Friday 1970-01-02) is a trading day and is returned. -/
theorem c7_tradingDays_spec_witness : 1 ∈ generateTradingDays 0 518400000 :=
  (c7_tradingDays_spec 0 518400000).2.2.2.1 1 (by decide) (by decide) (by decide)

lemma dayOfMs_dayTs (d : Int) : dayOfMs (dayTs d) = d := by
  unfold dayOfMs dayTs msPerDay
  exact Int.mul_fdiv_cancel d (by norm_num)

lemma dayTs_le_dayTs {a b : Int} (h : a ≤ b) : dayTs a ≤ dayTs b := by
  unfold dayTs msPerDay
  omega

lemma mem_windowDays_ge {holdings : List Holding} {range : DateRange}
    {today d : Int} (hd : d ∈ windowDays holdings range today) :
    startDay holdings range today ≤ d ∧ d ≤ today := by
  unfold windowDays generateTradingDays at hd
  have := mem_daysFromTo.mp (List.mem_filter.mp hd).1
  rwa [dayOfMs_dayTs, dayOfMs_dayTs] at this

/-- On a day where every present holding has a directly resolvable price, the
summed value is the sum of `shares * close` over the holdings already added,
independently of the incoming carry map. -/
lemma processHoldings_covered (cands : String → Option (List DailyCandle))
    (d : Int) (hs : List Holding) :
    ∀ last : String → Option Rat,
      (∀ h ∈ hs, h.addedAt ≤ dayTs d → (priceOn cands h.symbol d).isSome = true) →
      (processHoldings cands d hs last).1
        = ((hs.filter (fun h => decide (h.addedAt ≤ dayTs d))).map
            (fun h => h.shares * (priceOn cands h.symbol d).getD 0)).sum := by
  induction hs with
  | nil => intro last _; simp [processHoldings]
  | cons h rest ih =>
    intro last hcov
    by_cases hadd : h.addedAt > dayTs d
    · rw [processHoldings, if_pos hadd,
        List.filter_cons_of_neg (by simpa using hadd)]
      exact ih last fun x hx => hcov x (List.mem_cons_of_mem _ hx)
    · have hsome := hcov h (List.mem_cons_self _ _) (by omega)
      obtain ⟨p, hp⟩ := Option.isSome_iff_exists.mp hsome
      rw [processHoldings, if_neg hadd]
      simp only [hp]
      rw [List.filter_cons_of_pos (by simpa using (by omega : h.addedAt ≤ dayTs d)),
        List.map_cons, List.sum_cons, hp]
      simp only [Option.getD_some]
      rw [ih (mapSet last h.symbol p) fun x hx => hcov x (List.mem_cons_of_mem _ hx)]

/-- When every day of the list is fully covered for every already-added holding,
the history is the per-day sum, kept only when strictly positive. -/
lemma historyOverDays_covered (hs : List Holding)
    (cands : String → Option (List DailyCandle)) :
    ∀ days : List Int,
      (∀ d ∈ days, ∀ h ∈ hs, h.addedAt ≤ dayTs d →
        (priceOn cands h.symbol d).isSome = true) →
      ∀ last : String → Option Rat,
        historyOverDays hs cands days last
          = days.filterMap (fun d =>
              if 0 < ((hs.filter (fun h => decide (h.addedAt ≤ dayTs d))).map
                  (fun h => h.shares * (priceOn cands h.symbol d).getD 0)).sum
              then some ⟨d, ((hs.filter (fun h => decide (h.addedAt ≤ dayTs d))).map
                  (fun h => h.shares * (priceOn cands h.symbol d).getD 0)).sum⟩
              else none) := by
  intro days
  induction days with
  | nil => intro _ last; simp [historyOverDays]
  | cons d rest ih =>
    intro hcov last
    have hval := processHoldings_covered cands d hs last (hcov d (List.mem_cons_self _ _))
    rw [historyOverDays, List.filterMap_cons]
    simp only [hval]
    by_cases hpos :
        0 < ((hs.filter (fun h => decide (h.addedAt ≤ dayTs d))).map
          (fun h => h.shares * (priceOn cands h.symbol d).getD 0)).sum
    · rw [if_pos hpos, if_pos hpos,
        ih (fun x hx => hcov x (List.mem_cons_of_mem _ hx)) _]
    · rw [if_neg hpos, if_neg hpos,
        ih (fun x hx => hcov x (List.mem_cons_of_mem _ hx)) _]

lemma filterMap_eq_map_of_some {α β : Type} (f : α → Option β) (g : α → β) :
    ∀ l : List α, (∀ a ∈ l, f a = some (g a)) → l.filterMap f = l.map g := by
  intro l
  induction l with
  | nil => intro _; simp
  | cons a t ih =>
    intro hl
    rw [List.filterMap_cons, hl a (List.mem_cons_self _ _), List.map_cons,
      ih fun x hx => hl x (List.mem_cons_of_mem _ hx)]

/-- C1 (amended). Round-trip with positive data: for a non-empty holding set
whose holdings all have positive share counts and were all added at or before
the window start, and a price map that resolves a strictly positive close for
every holding's symbol on every trading day of the computed window,
`computePortfolioHistory` returns exactly one point per trading day of the
window, in the window's ascending order, whose value is the sum over holdings
of `shares * close` for that day. -/
theorem c1_roundTrip_amended (holdings : List Holding)
    (cands : String → Option (List DailyCandle)) (range : DateRange) (today : Int)
    (hne : holdings ≠ [])
    (hshares : ∀ h ∈ holdings, 0 < h.shares)
    (hadded : ∀ h ∈ holdings, h.addedAt ≤ dayTs (startDay holdings range today))
    (hcover : ∀ h ∈ holdings, ∀ d ∈ windowDays holdings range today,
      ∃ p : Rat, 0 < p ∧ priceOn cands h.symbol d = some p) :
    computePortfolioHistory holdings cands range today
      = (windowDays holdings range today).map
          (fun d => ⟨d, (holdings.map
              (fun h => h.shares * (priceOn cands h.symbol d).getD 0)).sum⟩) := by
  have haddedAll : ∀ d ∈ windowDays holdings range today, ∀ h ∈ holdings,
      h.addedAt ≤ dayTs d := by
    intro d hd h hh
    have h1 := hadded h hh
    have h2 := dayTs_le_dayTs (mem_windowDays_ge hd).1
    omega
  have hcov2 : ∀ d ∈ windowDays holdings range today, ∀ h ∈ holdings,
      h.addedAt ≤ dayTs d → (priceOn cands h.symbol d).isSome = true := by
    intro d hd h hh _
    obtain ⟨p, _, hp⟩ := hcover h hh d hd
    simp [hp]
  unfold computePortfolioHistory
  rw [if_neg hne]
  by_cases hw : windowDays holdings range today = []
  · rw [if_pos hw, hw, List.map_nil]
  · rw [if_neg hw, historyOverDays_covered holdings cands _ hcov2 _]
    refine filterMap_eq_map_of_some _ _ _ ?_
    intro d hd
    have hfilter : holdings.filter (fun h => decide (h.addedAt ≤ dayTs d)) = holdings :=
      List.filter_eq_self.mpr fun h hh => by
        simpa using haddedAll d hd h hh
    rw [hfilter]
    have hpos : 0 < (holdings.map
        (fun h => h.shares * (priceOn cands h.symbol d).getD 0)).sum := by
      refine List.sum_pos _ (fun x hx => ?_) (by simpa using hne)
      obtain ⟨h, hh, rfl⟩ := List.mem_map.mp hx
      obtain ⟨p, hp0, hp⟩ := hcover h hh d hd
      rw [hp, Option.getD_some]
      exact mul_pos (hshares h hh) hp0
    rw [if_pos hpos]

/-- A single holding of one share of "A", added at midnight of day 19723
(Monday 2024-01-01). -/
def c1xHoldings : List Holding := [⟨"A", 1, 1, dayTs 19723⟩]

/-- A price map that does contain a close for "A" on every trading day of the
one-day window, but that close is 0. -/
def c1xCands : String → Option (List DailyCandle) :=
  fun s => if s = "A" then some [⟨"A", 19723, "finnhub", 0, 0, 0, 0, none⟩] else none

/-- C1, counterexample to the claim as stated. With one holding (one share,
added at the window start) and a price map holding a close price for every
trading day of the window — namely close 0 on the single trading day 19723 —
`computePortfolioHistory` returns no points at all instead of exactly one point
per trading day: the `dayValue > 0` emission filter drops the day. -/
theorem c1_roundTrip_counterexample :
    c1xHoldings ≠ []
    ∧ windowDays c1xHoldings DateRange.all 19723 = [19723]
    ∧ priceOn c1xCands "A" 19723 = some 0
    ∧ (∀ h ∈ c1xHoldings, h.addedAt ≤ dayTs (startDay c1xHoldings DateRange.all 19723))
    ∧ computePortfolioHistory c1xHoldings c1xCands DateRange.all 19723 = [] := by
  have hw : windowDays c1xHoldings DateRange.all 19723 = [19723] := by decide
  refine ⟨by simp [c1xHoldings], hw, by simp [priceOn, c1xCands, buildPriceMap], ?_, ?_⟩
  · intro h hh
    rw [List.mem_singleton.mp hh]
    decide
  · rw [computePortfolioHistory, if_neg (by simp [c1xHoldings]), hw,
      if_neg (by simp)]
    simp [historyOverDays, processHoldings, priceOn, buildPriceMap, c1xHoldings,
      c1xCands, mapSet, dayTs, msPerDay]

/-- The same holding set with a positive close price. -/
def c1wCands : String → Option (List DailyCandle) :=
  fun s => if s = "A" then some [⟨"A", 19723, "finnhub", 5, 5, 5, 5, none⟩] else none

/-- Witness for C1 (amended) at a concrete input: one holding of one share of
"A" added on day 19723, close 5 on the single trading day of the window. -/
theorem c1_roundTrip_amended_witness :
    computePortfolioHistory c1xHoldings c1wCands DateRange.all 19723
      = (windowDays c1xHoldings DateRange.all 19723).map
          (fun d => ⟨d, (c1xHoldings.map
              (fun h => h.shares * (priceOn c1wCands h.symbol d).getD 0)).sum⟩) := by
  refine c1_roundTrip_amended c1xHoldings c1wCands DateRange.all 19723
    (by simp [c1xHoldings]) ?_ ?_ ?_
  · intro h hh
    rw [List.mem_singleton.mp hh]
    norm_num [c1xHoldings]
  · intro h hh
    rw [List.mem_singleton.mp hh]
    decide
  · intro h hh d hd
    rw [List.mem_singleton.mp hh]
    have hw : windowDays c1xHoldings DateRange.all 19723 = [19723] := by decide
    rw [hw] at hd
    rw [List.mem_singleton.mp hd]
    exact ⟨5, by norm_num, by simp [priceOn, c1wCands, buildPriceMap]⟩

lemma daysFromTo_four (start : Int) :
    daysFromTo start (start + 4)
      = [start, start + 1, start + 2, start + 3, start + 4] := by
  have h5 : (start + 4 + 1 - start).toNat = 5 := by omega
  rw [daysFromTo, h5]
  have hr : List.range 5 = [0, 1, 2, 3, 4] := by decide
  rw [hr]
  simp

/-- A window of range `'1W'` ending on the Friday of a week whose Monday is the
(midnight-aligned) earliest holding date consists of exactly that trading week. -/
lemma windowDays_week (hs : List Holding) (start : Int)
    (hmon : dayOfWeek start = 1) (he : earliestAddedMs hs = dayTs start) :
    windowDays hs DateRange.w1 (start + 4)
      = [start, start + 1, start + 2, start + 3, start + 4] := by
  have ht : ∀ k : Int, 0 ≤ k → k ≤ 4 → isTradingDay (start + k) = true := by
    intro k h0 h4
    rw [isTradingDay_iff]
    unfold dayOfWeek at hmon ⊢
    omega
  have h0 := ht 0 (by norm_num) (by norm_num)
  have h1 := ht 1 (by norm_num) (by norm_num)
  have h2 := ht 2 (by norm_num) (by norm_num)
  have h3 := ht 3 (by norm_num) (by norm_num)
  have h4 := ht 4 (by norm_num) (by norm_num)
  rw [add_zero] at h0
  rw [windowDays, startDay, he, dayOfMs_dayTs]
  have hrs : getDateRangeStart DateRange.w1 start (start + 4) = start + 4 - 7 := by
    simp [getDateRangeStart]
  rw [hrs, max_eq_right (by omega : start + 4 - 7 ≤ start), generateTradingDays,
    dayOfMs_dayTs, dayOfMs_dayTs, daysFromTo_four]
  simp [List.filter, h0, h1, h2, h3, h4]

lemma priceOn_same (f : List DailyCandle) (sym : String) (d : Int) :
    priceOn (fun s => if s = sym then some f else none) sym d = buildPriceMap f d := by
  simp [priceOn]

lemma buildPriceMap_two (c1 c2 : DailyCandle) (d : Int) :
    buildPriceMap [c1, c2] d
      = (if d = c2.date then some c2.close
         else if d = c1.date then some c1.close else none) := by
  simp [buildPriceMap]

lemma processHoldings_one_direct (cands : String → Option (List DailyCandle))
    (d : Int) (h : Holding) (last : String → Option Rat)
    (hq : h.addedAt ≤ dayTs d) (p : Rat)
    (hp : priceOn cands h.symbol d = some p) :
    processHoldings cands d [h] last = (h.shares * p, mapSet last h.symbol p) := by
  rw [processHoldings, if_neg (by omega)]
  simp only [hp]
  simp [processHoldings]

lemma processHoldings_one_carry (cands : String → Option (List DailyCandle))
    (d : Int) (h : Holding) (last : String → Option Rat)
    (hq : h.addedAt ≤ dayTs d)
    (hnone : priceOn cands h.symbol d = none) (p : Rat)
    (hl : last h.symbol = some p) :
    processHoldings cands d [h] last = (h.shares * p, last) := by
  rw [processHoldings, if_neg (by omega)]
  simp only [hnone, hl]
  simp [processHoldings]

lemma historyOverDays_cons (hs : List Holding)
    (cands : String → Option (List DailyCandle)) (d : Int) (rest : List Int)
    (last : String → Option Rat) :
    historyOverDays hs cands (d :: rest) last
      = (if 0 < (processHoldings cands d hs last).1
         then PortfolioHistoryPoint.mk d (processHoldings cands d hs last).1 ::
             historyOverDays hs cands rest (processHoldings cands d hs last).2
         else historyOverDays hs cands rest (processHoldings cands d hs last).2) := by
  rw [historyOverDays]

/-- C2. Forward-fill: for every symbol whose price map has a close `p1` on the
first trading day of a Monday-to-Friday window and a close `p5` on the fifth,
but none on days 2 through 4, `computePortfolioHistory` values the symbol's
holding on days 2 through 4 at day 1's carried-forward price `p1`, and on day 5
the carry is replaced by the newly found `p5`. Shares and prices are positive,
matching the emission rule that keeps only strictly positive day values. -/
theorem c2_forwardFill (start : Int) (sym prov : String) (σ avg p1 p5 : Rat)
    (cands : String → Option (List DailyCandle))
    (hmon : dayOfWeek start = 1)
    (hσ : 0 < σ) (hp1 : 0 < p1) (hp5 : 0 < p5)
    (hc : cands = fun s => if s = sym
        then some [⟨sym, start, prov, p1, p1, p1, p1, none⟩,
          ⟨sym, start + 4, prov, p5, p5, p5, p5, none⟩]
        else none) :
    computePortfolioHistory [⟨sym, σ, avg, dayTs start⟩] cands DateRange.w1 (start + 4)
      = [⟨start, σ * p1⟩, ⟨start + 1, σ * p1⟩, ⟨start + 2, σ * p1⟩,
        ⟨start + 3, σ * p1⟩, ⟨start + 4, σ * p5⟩] := by
  have hw := windowDays_week [⟨sym, σ, avg, dayTs start⟩] start hmon (by
    simp [earliestAddedMs])
  have hts : ∀ k : Int, 0 ≤ k → dayTs start ≤ dayTs (start + k) := by
    intro k hk
    unfold dayTs msPerDay
    omega
  have hp0 : priceOn cands sym start = some p1 := by
    subst hc
    rw [priceOn_same, buildPriceMap_two, if_neg (by dsimp only; omega),
      if_pos (by dsimp only)]
  have hpmid : ∀ k : Int, 1 ≤ k → k ≤ 3 → priceOn cands sym (start + k) = none := by
    intro k hk1 hk3
    subst hc
    rw [priceOn_same, buildPriceMap_two, if_neg (by dsimp only; omega),
      if_neg (by dsimp only; omega)]
  have hp4 : priceOn cands sym (start + 4) = some p5 := by
    subst hc
    rw [priceOn_same, buildPriceMap_two, if_pos (by dsimp only)]
  rw [computePortfolioHistory, if_neg (by simp), hw, if_neg (by simp)]
  rw [historyOverDays_cons,
    processHoldings_one_direct _ _ _ _ (le_refl _) p1 hp0,
    if_pos (by simpa using mul_pos hσ hp1)]
  simp only [mapSet, if_pos rfl]
  rw [historyOverDays_cons,
    processHoldings_one_carry _ _ _ _ (hts 1 (by norm_num)) (hpmid 1 le_rfl (by norm_num))
      p1 (by simp [mapSet]),
    if_pos (by simpa using mul_pos hσ hp1)]
  rw [historyOverDays_cons,
    processHoldings_one_carry _ _ _ _ (hts 2 (by norm_num)) (hpmid 2 (by norm_num) (by norm_num))
      p1 (by simp [mapSet]),
    if_pos (by simpa using mul_pos hσ hp1)]
  rw [historyOverDays_cons,
    processHoldings_one_carry _ _ _ _ (hts 3 (by norm_num)) (hpmid 3 (by norm_num) le_rfl)
      p1 (by simp [mapSet]),
    if_pos (by simpa using mul_pos hσ hp1)]
  rw [historyOverDays_cons,
    processHoldings_one_direct _ _ _ _ (hts 4 (by norm_num)) p5 hp4,
    if_pos (by simpa using mul_pos hσ hp5)]
  simp [historyOverDays]

/-- Witness for C2 at a concrete input: two shares of "AAPL" bought at Monday
day 19723 (2024-01-01), close 10 on Monday and 20 on Friday, nothing between:
the Tuesday-to-Thursday points carry Monday's price. -/
theorem c2_forwardFill_witness :
    computePortfolioHistory [⟨"AAPL", 2, 1, dayTs 19723⟩]
      (fun s => if s = "AAPL"
        then some [⟨"AAPL", 19723, "finnhub", 10, 10, 10, 10, none⟩,
          ⟨"AAPL", 19723 + 4, "finnhub", 20, 20, 20, 20, none⟩]
        else none)
      DateRange.w1 (19723 + 4)
      = [⟨19723, 2 * 10⟩, ⟨19723 + 1, 2 * 10⟩, ⟨19723 + 2, 2 * 10⟩,
        ⟨19723 + 3, 2 * 10⟩, ⟨19723 + 4, 2 * 20⟩] :=
  c2_forwardFill 19723 "AAPL" "finnhub" 2 1 10 20 _ (by decide)
    (by norm_num) (by norm_num) (by norm_num) rfl

/-- Holdings not yet added on day `d` are skipped outright: processing a day is
unaffected by removing every holding whose `addedAt` is after the day. -/
lemma processHoldings_temporal (cands : String → Option (List DailyCandle))
    (d : Int) :
    ∀ (hs : List Holding) (last : String → Option Rat),
      processHoldings cands d hs last
        = processHoldings cands d
            (hs.filter (fun h => decide (h.addedAt ≤ dayTs d))) last := by
  intro hs
  induction hs with
  | nil => intro last; rfl
  | cons h rest ih =>
    intro last
    by_cases hadd : h.addedAt > dayTs d
    · rw [processHoldings, if_pos hadd,
        List.filter_cons_of_neg (by simpa using hadd), ih]
    · rw [List.filter_cons_of_pos (by simpa using (by omega : h.addedAt ≤ dayTs d))]
      rw [processHoldings, if_neg hadd]
      conv_rhs => rw [processHoldings, if_neg hadd]
      cases hp : priceOn cands h.symbol d with
      | some p => simp only [ih]
      | none =>
        cases hl : last h.symbol with
        | some p => simp only [ih]
        | none => simp only [ih]

lemma buildPriceMap_aux_const (p : Rat) :
    ∀ (cs : List DailyCandle) (m : Int → Option Rat) (d : Int),
      (∀ c ∈ cs, c.close = p) →
      ((∃ c ∈ cs, c.date = d) ∨ m d = some p) →
      (cs.foldl (fun m c => fun x => if x = c.date then some c.close else m x) m) d
        = some p := by
  intro cs
  induction cs with
  | nil =>
    intro m d _ hm
    rcases hm with ⟨c, hc, _⟩ | hm
    · exact absurd hc (List.not_mem_nil c)
    · exact hm
  | cons c rest ih =>
    intro m d hclose hm
    rw [List.foldl_cons]
    refine ih _ d (fun x hx => hclose x (List.mem_cons_of_mem _ hx)) ?_
    by_cases hex : ∃ x ∈ rest, x.date = d
    · exact Or.inl hex
    · right
      rcases hm with ⟨x, hx, hxd⟩ | hm
      · rcases List.mem_cons.mp hx with rfl | hx2
        · rw [if_pos hxd.symm, hclose x (List.mem_cons_self _ _)]
        · exact absurd ⟨x, hx2, hxd⟩ hex
      · by_cases hd : d = c.date
        · rw [if_pos hd, hclose c (List.mem_cons_self _ _)]
        · rwa [if_neg hd]

lemma buildPriceMap_const (p : Rat) (cs : List DailyCandle) (d : Int)
    (hclose : ∀ c ∈ cs, c.close = p) (hdate : ∃ c ∈ cs, c.date = d) :
    buildPriceMap cs d = some p :=
  buildPriceMap_aux_const p cs _ d hclose (Or.inl hdate)

/-- Five consecutive candles with a constant close, one per day of a week. -/
def constCandles (sym prov : String) (p : Rat) (start : Int) : List DailyCandle :=
  [⟨sym, start, prov, p, p, p, p, none⟩, ⟨sym, start + 1, prov, p, p, p, p, none⟩,
    ⟨sym, start + 2, prov, p, p, p, p, none⟩, ⟨sym, start + 3, prov, p, p, p, p, none⟩,
    ⟨sym, start + 4, prov, p, p, p, p, none⟩]

lemma constCandles_price (sym prov : String) (p : Rat) (start k : Int)
    (h0 : 0 ≤ k) (h4 : k ≤ 4) :
    buildPriceMap (constCandles sym prov p start) (start + k) = some p := by
  refine buildPriceMap_const p _ _ ?_ ?_
  · intro c hc
    simp only [constCandles, List.mem_cons, List.not_mem_nil, or_false] at hc
    rcases hc with rfl | rfl | rfl | rfl | rfl <;> rfl
  · interval_cases k
    · exact ⟨⟨sym, start, prov, p, p, p, p, none⟩, by simp [constCandles],
        by dsimp only; omega⟩
    · exact ⟨⟨sym, start + 1, prov, p, p, p, p, none⟩, by simp [constCandles],
        by dsimp only⟩
    · exact ⟨⟨sym, start + 2, prov, p, p, p, p, none⟩, by simp [constCandles],
        by dsimp only⟩
    · exact ⟨⟨sym, start + 3, prov, p, p, p, p, none⟩, by simp [constCandles],
        by dsimp only⟩
    · exact ⟨⟨sym, start + 4, prov, p, p, p, p, none⟩, by simp [constCandles],
        by dsimp only⟩

lemma priceOn_if (g : String → Option (List DailyCandle)) (sym : String)
    (f : List DailyCandle) (s : String) (d : Int) :
    priceOn (fun x => if x = sym then some f else g x) s d
      = if s = sym then buildPriceMap f d else priceOn g s d := by
  by_cases h : s = sym <;> simp [priceOn, h]

/-- C3. Temporal inclusion: a holding contributes to a day's aggregate exactly
when its `addedAt` is at or before that day's timestamp. The first conjunct is
the general exclusion law — on any day, processing the holdings equals
processing only those with `addedAt ≤ day`, so a not-yet-added holding
contributes nothing and perturbs nothing. The second conjunct exhibits the
inclusion side on a Monday-to-Friday window with full positive prices: a
holding added on day 3 contributes nothing on days 1 and 2 and exactly
`shares * price` from day 3 onward, and a holding added on the final day
("today") contributes from that day onward only. -/
theorem c3_temporalInclusion (start : Int) (sA sB sC prov : String)
    (σ1 σ2 σ3 avg pA pB pC : Rat)
    (cands : String → Option (List DailyCandle))
    (hmon : dayOfWeek start = 1)
    (hσ1 : 0 < σ1) (hσ2 : 0 < σ2) (hσ3 : 0 < σ3)
    (hpA : 0 < pA) (hpB : 0 < pB) (hpC : 0 < pC)
    (hAB : sA ≠ sB) (hAC : sA ≠ sC) (hBC : sB ≠ sC)
    (hc : cands = fun s =>
        if s = sA then some (constCandles sA prov pA start)
        else if s = sB then some (constCandles sB prov pB start)
        else if s = sC then some (constCandles sC prov pC start)
        else none) :
    (∀ (cands2 : String → Option (List DailyCandle)) (d : Int) (hs : List Holding)
        (last : String → Option Rat),
      processHoldings cands2 d hs last
        = processHoldings cands2 d
            (hs.filter (fun h => decide (h.addedAt ≤ dayTs d))) last)
    ∧ computePortfolioHistory
        [⟨sA, σ1, avg, dayTs start⟩, ⟨sB, σ2, avg, dayTs (start + 2)⟩,
          ⟨sC, σ3, avg, dayTs (start + 4)⟩]
        cands DateRange.w1 (start + 4)
      = [⟨start, σ1 * pA⟩, ⟨start + 1, σ1 * pA⟩,
          ⟨start + 2, σ1 * pA + σ2 * pB⟩, ⟨start + 3, σ1 * pA + σ2 * pB⟩,
          ⟨start + 4, σ1 * pA + σ2 * pB + σ3 * pC⟩] := by
  refine ⟨fun cands2 d hs last => processHoldings_temporal cands2 d hs last, ?_⟩
  have hPA : ∀ k : Int, 0 ≤ k → k ≤ 4 → priceOn cands sA (start + k) = some pA := by
    intro k h0 h4
    subst hc
    rw [priceOn_if, if_pos rfl]
    exact constCandles_price sA prov pA start k h0 h4
  have hPB : ∀ k : Int, 0 ≤ k → k ≤ 4 → priceOn cands sB (start + k) = some pB := by
    intro k h0 h4
    subst hc
    rw [priceOn_if, if_neg (Ne.symm hAB), priceOn_if, if_pos rfl]
    exact constCandles_price sB prov pB start k h0 h4
  have hPC : ∀ k : Int, 0 ≤ k → k ≤ 4 → priceOn cands sC (start + k) = some pC := by
    intro k h0 h4
    subst hc
    rw [priceOn_if, if_neg (Ne.symm hAC), priceOn_if, if_neg (Ne.symm hBC),
      priceOn_if, if_pos rfl]
    exact constCandles_price sC prov pC start k h0 h4
  have hw := windowDays_week
    [⟨sA, σ1, avg, dayTs start⟩, ⟨sB, σ2, avg, dayTs (start + 2)⟩,
      ⟨sC, σ3, avg, dayTs (start + 4)⟩] start hmon (by
        simp only [earliestAddedMs, List.foldl_cons, List.foldl_nil]
        unfold dayTs msPerDay
        omega)
  have hmem5 : ∀ d ∈ windowDays
      [⟨sA, σ1, avg, dayTs start⟩, ⟨sB, σ2, avg, dayTs (start + 2)⟩,
        ⟨sC, σ3, avg, dayTs (start + 4)⟩] DateRange.w1 (start + 4),
      d = start ∨ d = start + 1 ∨ d = start + 2 ∨ d = start + 3 ∨ d = start + 4 := by
    intro d hd
    rw [hw] at hd
    simpa using hd
  have hPA2 : ∀ d, (d = start ∨ d = start + 1 ∨ d = start + 2 ∨ d = start + 3 ∨
      d = start + 4) → priceOn cands sA d = some pA := by
    intro d hd
    rcases hd with rfl | rfl | rfl | rfl | rfl
    · simpa using hPA 0 (by norm_num) (by norm_num)
    · exact hPA 1 (by norm_num) (by norm_num)
    · exact hPA 2 (by norm_num) (by norm_num)
    · exact hPA 3 (by norm_num) (by norm_num)
    · exact hPA 4 (by norm_num) (by norm_num)
  have hPB2 : ∀ d, (d = start ∨ d = start + 1 ∨ d = start + 2 ∨ d = start + 3 ∨
      d = start + 4) → priceOn cands sB d = some pB := by
    intro d hd
    rcases hd with rfl | rfl | rfl | rfl | rfl
    · simpa using hPB 0 (by norm_num) (by norm_num)
    · exact hPB 1 (by norm_num) (by norm_num)
    · exact hPB 2 (by norm_num) (by norm_num)
    · exact hPB 3 (by norm_num) (by norm_num)
    · exact hPB 4 (by norm_num) (by norm_num)
  have hPC2 : ∀ d, (d = start ∨ d = start + 1 ∨ d = start + 2 ∨ d = start + 3 ∨
      d = start + 4) → priceOn cands sC d = some pC := by
    intro d hd
    rcases hd with rfl | rfl | rfl | rfl | rfl
    · simpa using hPC 0 (by norm_num) (by norm_num)
    · exact hPC 1 (by norm_num) (by norm_num)
    · exact hPC 2 (by norm_num) (by norm_num)
    · exact hPC 3 (by norm_num) (by norm_num)
    · exact hPC 4 (by norm_num) (by norm_num)
  have hcov : ∀ d ∈ windowDays
      [⟨sA, σ1, avg, dayTs start⟩, ⟨sB, σ2, avg, dayTs (start + 2)⟩,
        ⟨sC, σ3, avg, dayTs (start + 4)⟩] DateRange.w1 (start + 4),
      ∀ h ∈ [(⟨sA, σ1, avg, dayTs start⟩ : Holding),
        ⟨sB, σ2, avg, dayTs (start + 2)⟩, ⟨sC, σ3, avg, dayTs (start + 4)⟩],
      h.addedAt ≤ dayTs d → (priceOn cands h.symbol d).isSome = true := by
    intro d hd h hh _
    have hd5 := hmem5 d hd
    simp only [List.mem_cons, List.not_mem_nil, or_false] at hh
    rcases hh with rfl | rfl | rfl
    · simp [hPA2 d hd5]
    · simp [hPB2 d hd5]
    · simp [hPC2 d hd5]
  rw [computePortfolioHistory, if_neg (by simp), if_neg (by rw [hw]; simp),
    historyOverDays_covered _ _ _ hcov _, hw]
  have hq1 : ∀ d : Int, start ≤ d → dayTs start ≤ dayTs d := by
    intro d h
    unfold dayTs msPerDay
    omega
  have hq2 : ∀ d : Int, d < start + 2 → ¬ dayTs (start + 2) ≤ dayTs d := by
    intro d h
    unfold dayTs msPerDay
    omega
  have hq2' : ∀ d : Int, start + 2 ≤ d → dayTs (start + 2) ≤ dayTs d := by
    intro d h
    unfold dayTs msPerDay
    omega
  have hq3 : ∀ d : Int, d < start + 4 → ¬ dayTs (start + 4) ≤ dayTs d := by
    intro d h
    unfold dayTs msPerDay
    omega
  have hf01 : ∀ d : Int, start ≤ d → d < start + 2 →
      ([(⟨sA, σ1, avg, dayTs start⟩ : Holding), ⟨sB, σ2, avg, dayTs (start + 2)⟩,
        ⟨sC, σ3, avg, dayTs (start + 4)⟩].filter
          (fun h => decide (h.addedAt ≤ dayTs d)))
        = [⟨sA, σ1, avg, dayTs start⟩] := by
    intro d h1 h2
    rw [List.filter_cons_of_pos (by simpa using hq1 d h1),
      List.filter_cons_of_neg (by simpa using hq2 d h2),
      List.filter_cons_of_neg (by simpa using hq3 d (by omega)), List.filter_nil]
  have hf23 : ∀ d : Int, start + 2 ≤ d → d < start + 4 →
      ([(⟨sA, σ1, avg, dayTs start⟩ : Holding), ⟨sB, σ2, avg, dayTs (start + 2)⟩,
        ⟨sC, σ3, avg, dayTs (start + 4)⟩].filter
          (fun h => decide (h.addedAt ≤ dayTs d)))
        = [⟨sA, σ1, avg, dayTs start⟩, ⟨sB, σ2, avg, dayTs (start + 2)⟩] := by
    intro d h1 h2
    rw [List.filter_cons_of_pos (by simpa using hq1 d (by omega)),
      List.filter_cons_of_pos (by simpa using hq2' d h1),
      List.filter_cons_of_neg (by simpa using hq3 d h2), List.filter_nil]
  have hf4 :
      ([(⟨sA, σ1, avg, dayTs start⟩ : Holding), ⟨sB, σ2, avg, dayTs (start + 2)⟩,
        ⟨sC, σ3, avg, dayTs (start + 4)⟩].filter
          (fun h => decide (h.addedAt ≤ dayTs (start + 4))))
        = [⟨sA, σ1, avg, dayTs start⟩, ⟨sB, σ2, avg, dayTs (start + 2)⟩,
          ⟨sC, σ3, avg, dayTs (start + 4)⟩] := by
    rw [List.filter_cons_of_pos (by simpa using hq1 (start + 4) (by omega)),
      List.filter_cons_of_pos (by simpa using hq2' (start + 4) (by omega)),
      List.filter_cons_of_pos (by simp), List.filter_nil]
  have hS0 : (([(⟨sA, σ1, avg, dayTs start⟩ : Holding),
      ⟨sB, σ2, avg, dayTs (start + 2)⟩, ⟨sC, σ3, avg, dayTs (start + 4)⟩].filter
        (fun h => decide (h.addedAt ≤ dayTs start))).map
        (fun h => h.shares * (priceOn cands h.symbol start).getD 0)).sum
      = σ1 * pA := by
    rw [hf01 start le_rfl (by omega)]
    simp [hPA2 start (by tauto)]
  have hS1 : (([(⟨sA, σ1, avg, dayTs start⟩ : Holding),
      ⟨sB, σ2, avg, dayTs (start + 2)⟩, ⟨sC, σ3, avg, dayTs (start + 4)⟩].filter
        (fun h => decide (h.addedAt ≤ dayTs (start + 1)))).map
        (fun h => h.shares * (priceOn cands h.symbol (start + 1)).getD 0)).sum
      = σ1 * pA := by
    rw [hf01 (start + 1) (by omega) (by omega)]
    simp [hPA2 (start + 1) (by tauto)]
  have hS2 : (([(⟨sA, σ1, avg, dayTs start⟩ : Holding),
      ⟨sB, σ2, avg, dayTs (start + 2)⟩, ⟨sC, σ3, avg, dayTs (start + 4)⟩].filter
        (fun h => decide (h.addedAt ≤ dayTs (start + 2)))).map
        (fun h => h.shares * (priceOn cands h.symbol (start + 2)).getD 0)).sum
      = σ1 * pA + σ2 * pB := by
    rw [hf23 (start + 2) le_rfl (by omega)]
    simp [hPA2 (start + 2) (by tauto), hPB2 (start + 2) (by tauto)]
  have hS3 : (([(⟨sA, σ1, avg, dayTs start⟩ : Holding),
      ⟨sB, σ2, avg, dayTs (start + 2)⟩, ⟨sC, σ3, avg, dayTs (start + 4)⟩].filter
        (fun h => decide (h.addedAt ≤ dayTs (start + 3)))).map
        (fun h => h.shares * (priceOn cands h.symbol (start + 3)).getD 0)).sum
      = σ1 * pA + σ2 * pB := by
    rw [hf23 (start + 3) (by omega) (by omega)]
    simp [hPA2 (start + 3) (by tauto), hPB2 (start + 3) (by tauto)]
  have hS4 : (([(⟨sA, σ1, avg, dayTs start⟩ : Holding),
      ⟨sB, σ2, avg, dayTs (start + 2)⟩, ⟨sC, σ3, avg, dayTs (start + 4)⟩].filter
        (fun h => decide (h.addedAt ≤ dayTs (start + 4)))).map
        (fun h => h.shares * (priceOn cands h.symbol (start + 4)).getD 0)).sum
      = σ1 * pA + σ2 * pB + σ3 * pC := by
    rw [hf4]
    simp [hPA2 (start + 4) (by tauto), hPB2 (start + 4) (by tauto),
      hPC2 (start + 4) (by tauto)]
    ring
  simp only [List.filterMap_cons, List.filterMap_nil, hS0, hS1, hS2, hS3, hS4,
    if_pos (mul_pos hσ1 hpA),
    if_pos (by positivity : (0 : Rat) < σ1 * pA + σ2 * pB),
    if_pos (by positivity : (0 : Rat) < σ1 * pA + σ2 * pB + σ3 * pC)]

/-- Witness for C3 at a concrete input: three holdings of "A", "B", "C" added
on Monday day 19723, Wednesday day 19725 and Friday day 19727 of the same week,
with constant positive closes 10, 20, 30 on all five days. -/
theorem c3_temporalInclusion_witness :
    computePortfolioHistory
        [⟨"A", 1, 1, dayTs 19723⟩, ⟨"B", 2, 1, dayTs (19723 + 2)⟩,
          ⟨"C", 3, 1, dayTs (19723 + 4)⟩]
        (fun s => if s = "A" then some (constCandles "A" "finnhub" 10 19723)
          else if s = "B" then some (constCandles "B" "finnhub" 20 19723)
          else if s = "C" then some (constCandles "C" "finnhub" 30 19723)
          else none)
        DateRange.w1 (19723 + 4)
      = [⟨19723, 1 * 10⟩, ⟨19723 + 1, 1 * 10⟩, ⟨19723 + 2, 1 * 10 + 2 * 20⟩,
          ⟨19723 + 3, 1 * 10 + 2 * 20⟩, ⟨19723 + 4, 1 * 10 + 2 * 20 + 3 * 30⟩] :=
  (c3_temporalInclusion 19723 "A" "B" "C" "finnhub" 1 2 3 1 10 20 30 _ (by decide)
    (by norm_num) (by norm_num) (by norm_num) (by norm_num) (by norm_num)
    (by norm_num) (by decide) (by decide) (by decide) rfl).2

lemma buildPriceMap_aux_none :
    ∀ (cs : List DailyCandle) (m : Int → Option Rat) (d : Int),
      (∀ c ∈ cs, c.date ≠ d) →
      (cs.foldl (fun m c => fun x => if x = c.date then some c.close else m x) m) d
        = m d := by
  intro cs
  induction cs with
  | nil => intro m d _; rfl
  | cons c rest ih =>
    intro m d hc
    rw [List.foldl_cons, ih _ d (fun x hx => hc x (List.mem_cons_of_mem _ hx)),
      if_neg fun hd => hc c (List.mem_cons_self _ _) hd.symm]

/-- A symbol with no price on day `d` and no carried price neither contributes
to the day nor changes the carry: its holdings can be dropped outright, and the
carry for that symbol stays absent. -/
lemma processHoldings_absent (cands : String → Option (List DailyCandle))
    (d : Int) (s : String) (hnone : priceOn cands s d = none) :
    ∀ (hs : List Holding) (last : String → Option Rat), last s = none →
      processHoldings cands d hs last
        = processHoldings cands d
            (hs.filter (fun h => decide (¬ h.symbol = s))) last
      ∧ (processHoldings cands d hs last).2 s = none := by
  intro hs
  induction hs with
  | nil =>
    intro last hl
    exact ⟨rfl, hl⟩
  | cons h rest ih =>
    intro last hl
    by_cases hsym : h.symbol = s
    · rw [List.filter_cons_of_neg (by simpa using hsym)]
      by_cases hadd : h.addedAt > dayTs d
      · rw [processHoldings, if_pos hadd]
        exact ih last hl
      · rw [processHoldings, if_neg hadd]
        simp only [hsym, hnone, hl]
        exact ih last hl
    · rw [List.filter_cons_of_pos (by simpa using hsym)]
      by_cases hadd : h.addedAt > dayTs d
      · constructor
        · rw [processHoldings, if_pos hadd]
          conv_rhs => rw [processHoldings, if_pos hadd]
          exact (ih last hl).1
        · rw [processHoldings, if_pos hadd]
          exact (ih last hl).2
      · have hl2 : ∀ p : Rat, mapSet last h.symbol p s = none := by
          intro p
          rw [mapSet, if_neg fun hss => hsym hss.symm]
          exact hl
        constructor
        · rw [processHoldings, if_neg hadd]
          conv_rhs => rw [processHoldings, if_neg hadd]
          cases hp : priceOn cands h.symbol d with
          | some p => simp only [(ih (mapSet last h.symbol p) (hl2 p)).1]
          | none =>
            cases hlh : last h.symbol with
            | some p => simp only [(ih last hl).1]
            | none => exact (ih last hl).1
        · rw [processHoldings, if_neg hadd]
          cases hp : priceOn cands h.symbol d with
          | some p => exact (ih (mapSet last h.symbol p) (hl2 p)).2
          | none =>
            cases hlh : last h.symbol with
            | some p => exact (ih last hl).2
            | none => exact (ih last hl).2

lemma historyOverDays_absent (cands : String → Option (List DailyCandle))
    (s : String) (hs : List Holding) :
    ∀ days : List Int, (∀ d ∈ days, priceOn cands s d = none) →
      ∀ last : String → Option Rat, last s = none →
        historyOverDays hs cands days last
          = historyOverDays (hs.filter (fun h => decide (¬ h.symbol = s))) cands
              days last := by
  intro days
  induction days with
  | nil => intro _ last _; rfl
  | cons d rest ih =>
    intro hnone last hl
    have hstep := processHoldings_absent cands d s (hnone d (List.mem_cons_self _ _))
      hs last hl
    rw [historyOverDays, historyOverDays, hstep.1.symm]
    rw [ih (fun x hx => hnone x (List.mem_cons_of_mem _ hx)) _ hstep.2]

/-- C10. Pre-window prices are never carried in: if every cached date for
symbol `s` lies strictly before every trading day of the computed window, the
history is exactly what it would be with all of `s`'s holdings removed — those
holdings contribute nothing on any day of the window, and days whose only
prospective value came from `s` are omitted rather than forward-filled. -/
theorem c10_preWindowPrices (holdings : List Holding)
    (cands : String → Option (List DailyCandle)) (range : DateRange) (today : Int)
    (s : String)
    (hne : holdings ≠ [])
    (hdates : ∀ cs, cands s = some cs → ∀ c ∈ cs,
      ∀ d ∈ windowDays holdings range today, c.date < d) :
    computePortfolioHistory holdings cands range today
      = historyOverDays (holdings.filter (fun h => decide (¬ h.symbol = s))) cands
          (windowDays holdings range today) (fun _ => none) := by
  have hnone : ∀ d ∈ windowDays holdings range today, priceOn cands s d = none := by
    intro d hd
    cases hc : cands s with
    | none => simp [priceOn, hc]
    | some cs =>
      simp only [priceOn, hc]
      exact buildPriceMap_aux_none cs _ d
        fun c hcc => Int.ne_of_lt (hdates cs hc c hcc d hd)
  rw [computePortfolioHistory, if_neg hne]
  by_cases hw : windowDays holdings range today = []
  · rw [if_pos hw, hw]
    rfl
  · rw [if_neg hw]
    exact historyOverDays_absent cands s holdings _ hnone _ rfl

/-- One holding of "A" whose only cached price sits on Sunday day 19722,
strictly before the one-day window starting Monday day 19723. -/
def c10Cands : String → Option (List DailyCandle) :=
  fun s => if s = "A" then some [⟨"A", 19722, "finnhub", 7, 7, 7, 7, none⟩] else none

/-- Witness for C10 at a concrete input: the pre-window price of "A" is not
forward-filled into the window, so the history equals that of the empty
remainder of the holding set — no points at all. -/
theorem c10_preWindowPrices_witness :
    computePortfolioHistory c1xHoldings c10Cands DateRange.all 19723
      = historyOverDays (c1xHoldings.filter (fun h => decide (¬ h.symbol = "A")))
          c10Cands (windowDays c1xHoldings DateRange.all 19723) (fun _ => none) := by
  refine c10_preWindowPrices c1xHoldings c10Cands DateRange.all 19723 "A"
    (by simp [c1xHoldings]) ?_
  intro cs hcs c hc d hd
  have hwv : windowDays c1xHoldings DateRange.all 19723 = [19723] := by decide
  rw [hwv] at hd
  rw [List.mem_singleton.mp hd]
  simp [c10Cands] at hcs
  subst hcs
  rcases List.mem_singleton.mp hc with rfl
  decide

/-- The comparator `(a, b) => a.date.localeCompare(b.date)` as a relation; on
YYYY-MM-DD strings `localeCompare` agrees with the numeric order of day
numbers. -/
def dateLE (a b : DailyCandle) : Prop := a.date ≤ b.date

instance : DecidableRel dateLE := fun a b => inferInstanceAs (Decidable (a.date ≤ b.date))

instance : IsTotal DailyCandle dateLE := ⟨fun a b => le_total a.date b.date⟩

instance : IsTrans DailyCandle dateLE := ⟨fun _ _ _ h1 h2 => le_trans h1 h2⟩

/-- `validateCacheCoverage(candles, fromDate, toDate)` from the
`usePortfolioHistory` hook: empty caches are unusable; otherwise sort by date
(JS stable sort, modelled by the stable insertion sort) and compare the
earliest and latest cached dates against the required bounds. The source
computes the day differences by dividing millisecond differences, which is
exact at day granularity. -/
def validateCacheCoverage (candles : List DailyCandle)
    (fromDate toDate : Int) : Bool :=
  if candles = [] then false
  else
    match (candles.insertionSort dateLE).head?,
        (candles.insertionSort dateLE).getLast? with
    | some earliest, some latest =>
      if 5 < earliest.date - fromDate then false
      else if 2 < toDate - latest.date then false
      else true
    | _, _ => false

lemma pairwise_le_getLast :
    ∀ (l : List DailyCandle), List.Pairwise dateLE l → ∀ (hne : l ≠ []),
      ∀ c ∈ l, c.date ≤ (l.getLast hne).date := by
  intro l
  induction l with
  | nil => intro _ hne; cases hne rfl
  | cons a t ih =>
    intro hp hne c hc
    cases t with
    | nil =>
      rw [List.mem_singleton.mp hc]
      exact le_refl _
    | cons b t2 =>
      rw [List.getLast_cons (by simp)]
      rcases List.mem_cons.mp hc with rfl | hc2
      · exact (List.pairwise_cons.mp hp).1 _ (List.getLast_mem _)
      · exact ih (List.pairwise_cons.mp hp).2 (by simp) c hc2

/-- The head and last of the date-sorted candle list are candles of minimal and
maximal date. -/
lemma sortedHeadLast (l : List DailyCandle) (hne : l ≠ []) :
    ∃ e lt, (l.insertionSort dateLE).head? = some e
      ∧ (l.insertionSort dateLE).getLast? = some lt
      ∧ e ∈ l ∧ lt ∈ l
      ∧ (∀ c ∈ l, e.date ≤ c.date) ∧ (∀ c ∈ l, c.date ≤ lt.date) := by
  have hperm := List.perm_insertionSort dateLE l
  have hsort : List.Pairwise dateLE (l.insertionSort dateLE) :=
    List.sorted_insertionSort dateLE l
  have hsne : l.insertionSort dateLE ≠ [] := by
    intro h
    rw [h] at hperm
    exact hne hperm.symm.eq_nil
  cases hs : l.insertionSort dateLE with
  | nil => exact absurd hs hsne
  | cons e rest =>
    rw [hs] at hperm hsort
    refine ⟨e, (e :: rest).getLast (by simp), rfl,
      List.getLast?_eq_getLast _ (by simp), ?_, ?_, ?_, ?_⟩
    · exact hperm.mem_iff.mp (List.mem_cons_self _ _)
    · exact hperm.mem_iff.mp (List.getLast_mem _)
    · intro c hc
      rcases List.mem_cons.mp (hperm.mem_iff.mpr hc) with rfl | hc2
      · exact le_refl _
      · exact (List.pairwise_cons.mp hsort).1 c hc2
    · intro c hc
      exact pairwise_le_getLast _ hsort (by simp) c (hperm.mem_iff.mpr hc)

/-- C6. Coverage validator boundaries: an empty series is never usable, and a
non-empty series with minimal cached date `e` and maximal cached date `l` is
usable exactly when `e` is at most 5 days after the required start and the
required end is at most 2 days after `l` — 6 days of leading slack are
rejected and 5 accepted, 3 days of trailing staleness rejected and 2 accepted,
and internal gaps play no role. -/
theorem c6_coverage_boundaries (candles : List DailyCandle)
    (fromDate toDate e l : Int)
    (hne : candles ≠ [])
    (hminMem : ∃ c ∈ candles, c.date = e) (hmin : ∀ c ∈ candles, e ≤ c.date)
    (hmaxMem : ∃ c ∈ candles, c.date = l) (hmax : ∀ c ∈ candles, c.date ≤ l) :
    (validateCacheCoverage candles fromDate toDate = true
      ↔ (e - fromDate ≤ 5 ∧ toDate - l ≤ 2))
    ∧ validateCacheCoverage [] fromDate toDate = false := by
  refine ⟨?_, by simp [validateCacheCoverage]⟩
  obtain ⟨e0, l0, hh, hl, he0m, hl0m, he0, hl0⟩ := sortedHeadLast candles hne
  have hee : e0.date = e := by
    obtain ⟨c, hc, rfl⟩ := hminMem
    exact le_antisymm (he0 c hc) (hmin e0 he0m)
  have hll : l0.date = l := by
    obtain ⟨c, hc, rfl⟩ := hmaxMem
    exact le_antisymm (hmax l0 hl0m) (hl0 c hc)
  rw [validateCacheCoverage, if_neg hne]
  simp only [hh, hl, hee, hll]
  split_ifs with h1 h2 <;> simp <;> omega

/-- A one-candle cache on day 10. -/
def c6Candle : DailyCandle := ⟨"A", 10, "finnhub", 1, 1, 1, 1, none⟩

/-- Witness for C6 at the four boundary inputs: a cache whose only candle sits
on day 10 is rejected for a window starting on day 4 (6 days of slack) but
accepted from day 5 (5 days); it is rejected for a window ending on day 13
(3 days stale) but accepted for day 12 (2 days). -/
theorem c6_coverage_boundaries_witness :
    validateCacheCoverage [c6Candle] 4 12 = false
    ∧ validateCacheCoverage [c6Candle] 5 12 = true
    ∧ validateCacheCoverage [c6Candle] 5 13 = false
    ∧ validateCacheCoverage [c6Candle] 10 10 = true := by
  have hchar : ∀ fromDate toDate : Int,
      validateCacheCoverage [c6Candle] fromDate toDate = true
        ↔ (10 - fromDate ≤ 5 ∧ toDate - 10 ≤ 2) := fun fromDate toDate =>
    (c6_coverage_boundaries [c6Candle] fromDate toDate 10 10 (by simp)
      ⟨c6Candle, by simp, rfl⟩
      (fun c hc => by rw [List.mem_singleton.mp hc]; exact le_refl _)
      ⟨c6Candle, by simp, rfl⟩
      (fun c hc => by rw [List.mem_singleton.mp hc]; exact le_refl _)).1
  refine ⟨?_, (hchar 5 12).mpr (by norm_num), ?_, (hchar 10 10).mpr (by norm_num)⟩
  · cases hb : validateCacheCoverage [c6Candle] 4 12 with
    | false => rfl
    | true =>
      have := (hchar 4 12).mp hb
      omega
  · cases hb : validateCacheCoverage [c6Candle] 5 13 with
    | false => rfl
    | true =>
      have := (hchar 5 13).mp hb
      omega

/-- A holding joined with its current market value
(`HoldingWithValue` in `src/stores/portfolio.ts`); `currentValue` is absent
when the quote fetch failed. Fields not read by `computeAllocation` are
omitted. -/
structure HoldingWithValue where
  symbol : String
  shares : Rat
  avgCost : Rat
  addedAt : Int
  currentValue : Option Rat
deriving DecidableEq, Repr

/-- One slice of the allocation pie (`AllocationData`). -/
structure AllocationData where
  symbol : String
  value : Rat
  percentage : Rat
  color : String
deriving DecidableEq, Repr

/-- The comparator `(a, b) => b.value - a.value` (descending by value) as a
relation. -/
def allocGE (a b : AllocationData) : Prop := b.value ≤ a.value

instance : DecidableRel allocGE := fun a b => inferInstanceAs (Decidable (b.value ≤ a.value))

instance : IsTotal AllocationData allocGE := ⟨fun a b => le_total b.value a.value⟩

instance : IsTrans AllocationData allocGE := ⟨fun _ _ _ h1 h2 => le_trans h2 h1⟩

/-- The fixed pie-chart palette `CHART_COLORS`. -/
def CHART_COLORS : List String :=
  ["#6366f1", "#22c55e", "#3b82f6", "#f59e0b", "#ec4899", "#8b5cf6", "#14b8a6",
    "#f97316"]

/-- `generateChartColors(count)`: cycle through the palette. The source's
`if (color)` guard always passes, the palette entries being non-empty. -/
def generateChartColors (count : Nat) : List String :=
  (List.range count).map (fun i => CHART_COLORS.getD (i % CHART_COLORS.length) "")

/-- `computeAllocation(holdings)` from `src/utils/portfolioCalculations.ts`:
total the `currentValue ?? 0` over all holdings; return `[]` when the total is
exactly 0; filter to the holdings with a present, strictly positive value (the
JS truthiness test `h.currentValue && h.currentValue > 0`); build a slice per
filtered holding with percentage relative to the full total and a color indexed
by post-filter position; sort descending by value (stable JS sort, modelled by
the stable insertion sort). -/
def computeAllocation (holdings : List HoldingWithValue) : List AllocationData :=
  if holdings.foldl (fun sum h => sum + h.currentValue.getD 0) 0 = 0 then []
  else
    ((holdings.filter (fun h => decide (0 < h.currentValue.getD 0))).enum.map
      (fun ih =>
        ⟨ih.2.symbol, ih.2.currentValue.getD 0,
          ih.2.currentValue.getD 0 /
            (holdings.foldl (fun sum h => sum + h.currentValue.getD 0) 0) * 100,
          (generateChartColors holdings.length).getD ih.1 "#6366f1"⟩)).insertionSort
      allocGE

lemma total_eq_sum (holdings : List HoldingWithValue) :
    holdings.foldl (fun sum h => sum + h.currentValue.getD 0) 0
      = (holdings.map (fun h => h.currentValue.getD 0)).sum := by
  rw [List.sum_eq_foldl, List.foldl_map]

lemma filter_sum_eq (holdings : List HoldingWithValue)
    (hnn : ∀ h ∈ holdings, 0 ≤ h.currentValue.getD 0) :
    ((holdings.filter (fun h => decide (0 < h.currentValue.getD 0))).map
      (fun h => h.currentValue.getD 0)).sum
      = (holdings.map (fun h => h.currentValue.getD 0)).sum := by
  induction holdings with
  | nil => rfl
  | cons h t ih =>
    by_cases hpos : 0 < h.currentValue.getD 0
    · rw [List.filter_cons_of_pos (by simpa using hpos), List.map_cons,
        List.sum_cons, List.map_cons, List.sum_cons,
        ih fun x hx => hnn x (List.mem_cons_of_mem _ hx)]
    · have hzero : h.currentValue.getD 0 = 0 :=
        le_antisymm (not_lt.mp hpos) (hnn h (List.mem_cons_self _ _))
      rw [List.filter_cons_of_neg (by simpa using hpos), List.map_cons,
        List.sum_cons, hzero, zero_add,
        ih fun x hx => hnn x (List.mem_cons_of_mem _ hx)]

lemma sum_div_mul (T : Rat) :
    ∀ l : List Rat, (l.map (fun x => x / T * 100)).sum = l.sum / T * 100 := by
  intro l
  induction l with
  | nil => simp
  | cons a t ih =>
    rw [List.map_cons, List.sum_cons, List.sum_cons, ih]
    ring

lemma enum_map_snd_comp {α β : Type} (l : List α) (f : α → β) :
    l.enum.map (fun ih => f ih.2) = l.map f := by
  conv_rhs => rw [← List.enum_map_snd l]
  rw [List.map_map]
  rfl

/-- C8 (amended). Allocation: holdings with absent or non-positive value are
excluded; the total is the sum of `currentValue ?? 0` over all holdings, which,
when no holding carries a negative value, coincides with the sum over the
included holdings only; the result is empty when the total is 0; when the
total is positive the percentages sum to exactly 100; the result is sorted
descending by value; and every returned slice has a positive value and
percentage equal to its value relative to the total. -/
theorem c8_allocation_amended (holdings : List HoldingWithValue)
    (hnn : ∀ h ∈ holdings, 0 ≤ h.currentValue.getD 0) :
    ((holdings.map (fun h => h.currentValue.getD 0)).sum = 0 →
      computeAllocation holdings = [])
    ∧ ((holdings.filter (fun h => decide (0 < h.currentValue.getD 0))).map
        (fun h => h.currentValue.getD 0)).sum
        = (holdings.map (fun h => h.currentValue.getD 0)).sum
    ∧ (0 < (holdings.map (fun h => h.currentValue.getD 0)).sum →
        ((computeAllocation holdings).map AllocationData.percentage).sum = 100)
    ∧ List.Pairwise allocGE (computeAllocation holdings)
    ∧ ∀ a ∈ computeAllocation holdings, 0 < a.value
        ∧ a.percentage
          = a.value / (holdings.map (fun h => h.currentValue.getD 0)).sum * 100 := by
  have htot := total_eq_sum holdings
  refine ⟨?_, filter_sum_eq holdings hnn, ?_, ?_, ?_⟩
  · intro h0
    rw [computeAllocation, if_pos (by rw [htot]; exact h0)]
  · intro hpos
    rw [computeAllocation, if_neg (by rw [htot]; exact ne_of_gt hpos)]
    rw [((List.perm_insertionSort allocGE _).map AllocationData.percentage).sum_eq,
      List.map_map]
    have hcomp :
        (AllocationData.percentage ∘ fun ih : Nat × HoldingWithValue =>
          (⟨ih.2.symbol, ih.2.currentValue.getD 0,
            ih.2.currentValue.getD 0 /
              (holdings.foldl (fun sum h => sum + h.currentValue.getD 0) 0) * 100,
            (generateChartColors holdings.length).getD ih.1 "#6366f1"⟩ : AllocationData))
        = fun ih : Nat × HoldingWithValue =>
            (fun h : HoldingWithValue => h.currentValue.getD 0 /
              (holdings.foldl (fun sum h => sum + h.currentValue.getD 0) 0) * 100)
              ih.2 := rfl
    rw [hcomp]
    refine Eq.trans (congrArg List.sum (enum_map_snd_comp
      (holdings.filter (fun h => decide (0 < h.currentValue.getD 0)))
      (fun h : HoldingWithValue => h.currentValue.getD 0 /
        (holdings.foldl (fun sum h => sum + h.currentValue.getD 0) 0) * 100))) ?_
    refine Eq.trans (congrArg List.sum (List.map_map
      (fun x : Rat => x /
        (holdings.foldl (fun sum h => sum + h.currentValue.getD 0) 0) * 100)
      (fun h : HoldingWithValue => h.currentValue.getD 0)
      (holdings.filter (fun h => decide (0 < h.currentValue.getD 0)))).symm) ?_
    rw [sum_div_mul, filter_sum_eq holdings hnn, htot,
      div_self (ne_of_gt hpos), one_mul]
  · by_cases hz : holdings.foldl (fun sum h => sum + h.currentValue.getD 0) 0 = 0
    · rw [computeAllocation, if_pos hz]
      exact List.Pairwise.nil
    · rw [computeAllocation, if_neg hz]
      exact List.sorted_insertionSort allocGE _
  · intro a ha
    by_cases hz : holdings.foldl (fun sum h => sum + h.currentValue.getD 0) 0 = 0
    · rw [computeAllocation, if_pos hz] at ha
      exact absurd ha (List.not_mem_nil a)
    · rw [computeAllocation, if_neg hz] at ha
      have ha2 := (List.perm_insertionSort allocGE _).mem_iff.mp ha
      obtain ⟨ih, hih, rfl⟩ := List.mem_map.mp ha2
      have hsnd : ih.2 ∈ holdings.filter (fun h => decide (0 < h.currentValue.getD 0)) := by
        have hms := List.enum_map_snd
          (holdings.filter (fun h => decide (0 < h.currentValue.getD 0)))
        rw [← hms]
        exact List.mem_map_of_mem Prod.snd hih
      constructor
      · simpa using (List.mem_filter.mp hsnd).2
      · dsimp only
        rw [htot]

/-- Two holdings, one worth 100 and one worth -50. -/
def c8xHoldings : List HoldingWithValue :=
  [⟨"A", 1, 1, 0, some 100⟩, ⟨"B", 1, 1, 0, some (-50)⟩]

/-- C8, counterexample to the claim as stated. With a holding of value 100 and
one of value -50, the total over all holdings is 50 (positive), holding "A" is
the only included one, yet its percentage is computed against the full total
including the negative holding: 100 / 50 * 100 = 200, not 100 / 100 * 100 =
100 as "relative to the sum of the included holdings only" requires, and the
percentages sum to 200, not 100. -/
theorem c8_allocation_counterexample :
    (c8xHoldings.map (fun h => h.currentValue.getD 0)).sum = 50
    ∧ computeAllocation c8xHoldings = [⟨"A", 100, 200, "#6366f1"⟩]
    ∧ ((computeAllocation c8xHoldings).map AllocationData.percentage).sum = 200 := by
  refine ⟨by norm_num [c8xHoldings], ?_, ?_⟩ <;>
    norm_num [computeAllocation, c8xHoldings, generateChartColors, CHART_COLORS,
      List.insertionSort, List.orderedInsert, List.enum, List.enumFrom]

/-- Two holdings of values 100 and 300, the second excluded-free setting. -/
def c8wHoldings : List HoldingWithValue :=
  [⟨"A", 1, 1, 0, some 100⟩, ⟨"B", 1, 1, 0, some 300⟩]

/-- Witness for C8 (amended) at a concrete input: with values 100 and 300 the
percentages sum to exactly 100. -/
theorem c8_allocation_amended_witness :
    ((computeAllocation c8wHoldings).map AllocationData.percentage).sum = 100 := by
  refine (c8_allocation_amended c8wHoldings ?_).2.2.1 ?_
  · intro h hh
    simp only [c8wHoldings, List.mem_cons, List.not_mem_nil, or_false] at hh
    rcases hh with rfl | rfl <;> norm_num
  · norm_num [c8wHoldings]

/-- JS `String.prototype.toUpperCase`, character-wise; ASCII semantics suffice
for ticker symbols. (The Lean core `String.toUpper` is identical in content
but defined by byte-position recursion that does not reduce definitionally.) -/
def toUpperCase (s : String) : String := ⟨s.data.map Char.toUpper⟩

/-- A `cacheMeta` row (`CacheMeta` in `src/lib/db/index.ts`). In the Dexie
schema `cacheMeta: 'symbol, provider'` the primary key is `symbol` alone;
`provider` is merely an index. The JS access `entry.candleCount ?? 0` can see
`undefined` only for rows written outside `cacheCandles`; rows are modelled as
always carrying the count. -/
structure CacheMeta where
  symbol : String
  provider : String
  lastSync : Int
  candleCount : Nat
deriving DecidableEq, Repr

/-- The persistent store: the `dailyCandles` table (auto-increment primary key,
modelled as insertion order of the row list) and the `cacheMeta` table. -/
structure CacheDB where
  dailyCandles : List DailyCandle
  cacheMeta : List CacheMeta
deriving DecidableEq, Repr

/-- Dexie `put` on the `cacheMeta` table: upsert keyed by `symbol` alone. -/
def putCacheMeta (rows : List CacheMeta) (row : CacheMeta) : List CacheMeta :=
  rows.filter (fun r => decide (¬ r.symbol = row.symbol)) ++ [row]

/-- `cacheCandles` step 1 (its own Dexie transaction): delete the existing
candles for (symbol, provider). -/
def cacheCandlesDelete (db : CacheDB) (symbol provider : String) : CacheDB :=
  { db with dailyCandles := (db.dailyCandles.filter
      (fun c => decide (¬ (c.symbol = toUpperCase symbol ∧ c.provider = provider)))) }

/-- `cacheCandles` step 2 (its own Dexie transaction): `bulkPut` of fresh rows
without primary keys appends them. -/
def cacheCandlesBulkPut (db : CacheDB) (symbol : String)
    (candles : List DailyCandle) : CacheDB :=
  { db with dailyCandles := (db.dailyCandles
      ++ candles.map (fun c => { c with symbol := toUpperCase symbol })) }

/-- `cacheCandles` step 3 (its own Dexie transaction): upsert the metadata row. -/
def cacheCandlesPutMeta (db : CacheDB) (symbol provider : String) (count : Nat)
    (now : Int) : CacheDB :=
  { db with cacheMeta := (putCacheMeta db.cacheMeta
      ⟨toUpperCase symbol, provider, now, count⟩) }

/-- `cacheCandles(symbol, provider, candles)` from `src/lib/db/index.ts`: the
three awaited Dexie operations in source order. The source wraps them in no
`db.transaction` (unlike `deletePortfolio`, which does), so each step commits
independently and a concurrent reader can run between the steps; `now` stands
for `Date.now()`. -/
def cacheCandles (db : CacheDB) (symbol provider : String)
    (candles : List DailyCandle) (now : Int) : CacheDB :=
  cacheCandlesPutMeta
    (cacheCandlesBulkPut (cacheCandlesDelete db symbol provider) symbol candles)
    symbol provider candles.length now

/-- `getCandlesInRange(symbol, provider, fromDate, toDate)`: the matching rows
sorted ascending by date. -/
def getCandlesInRange (db : CacheDB) (symbol provider : String)
    (fromDate toDate : Int) : List DailyCandle :=
  (db.dailyCandles.filter (fun c => decide (c.symbol = toUpperCase symbol
    ∧ c.provider = provider ∧ fromDate ≤ c.date ∧ c.date ≤ toDate))).insertionSort
    dateLE

/-- `verifyCacheIntegrity()` from `src/lib/db/index.ts`: for each metadata row,
count every stored candle with that symbol — with no provider filter — and
report the symbol when the count differs from the row's `candleCount`.
Read-only: the database value is not touched. -/
def verifyCacheIntegrity (db : CacheDB) : List String :=
  db.cacheMeta.foldl (fun corrupted entry =>
    if (db.dailyCandles.filter (fun c => decide (c.symbol = entry.symbol))).length
        ≠ entry.candleCount
    then corrupted ++ [entry.symbol] else corrupted) []

/-- The old cached candle for ("AAPL", "finnhub"). -/
def c5Old : DailyCandle := ⟨"AAPL", 100, "finnhub", 1, 1, 1, 1, none⟩

/-- The replacement candle. -/
def c5New : DailyCandle := ⟨"AAPL", 101, "finnhub", 2, 2, 2, 2, none⟩

/-- A database holding the old candle and its metadata row. -/
def c5Db : CacheDB := ⟨[c5Old], [⟨"AAPL", "finnhub", 0, 1⟩]⟩

/-- C5. The replacement is not atomic: before `cacheCandles` the reader sees
exactly the old data set and afterwards exactly the new one, but a reader
scheduled between the delete step and the `bulkPut` step — possible because the
three operations are separately awaited Dexie calls with no surrounding
`db.transaction` — observes an empty series, which is neither the old nor the
new data set. -/
theorem c5_cacheCandles_nonatomic :
    getCandlesInRange c5Db "AAPL" "finnhub" 0 200 = [c5Old]
    ∧ getCandlesInRange (cacheCandles c5Db "AAPL" "finnhub" [c5New] 50)
        "AAPL" "finnhub" 0 200 = [c5New]
    ∧ getCandlesInRange (cacheCandlesDelete c5Db "AAPL" "finnhub")
        "AAPL" "finnhub" 0 200 = []
    ∧ ([] : List DailyCandle) ≠ [c5Old]
    ∧ ([] : List DailyCandle) ≠ [c5New] := by
  refine ⟨rfl, rfl, rfl, by simp, by simp⟩

/-- A cache produced by two honest `cacheCandles` calls for the same symbol
under two different providers: 2 finnhub candles recorded with count 2, then
3 alphavantage candles recorded with count 3. -/
def c9Db : CacheDB :=
  cacheCandles
    (cacheCandles ⟨[], []⟩ "AAPL" "finnhub"
      [⟨"AAPL", 100, "finnhub", 1, 1, 1, 1, none⟩,
        ⟨"AAPL", 101, "finnhub", 1, 1, 1, 1, none⟩] 10)
    "AAPL" "alpha"
    [⟨"AAPL", 100, "alpha", 1, 1, 1, 1, none⟩,
      ⟨"AAPL", 101, "alpha", 1, 1, 1, 1, none⟩,
      ⟨"AAPL", 102, "alpha", 1, 1, 1, 1, none⟩] 20

/-- C9, counterexample to the claim as stated. After caching 2 finnhub candles
(recorded count 2) and 3 alphavantage candles (recorded count 3) for "AAPL",
every provider's stored points match the count recorded when they were cached,
yet: the metadata table holds a single row — keyed by symbol alone, the second
put overwrote the finnhub row — and `verifyCacheIntegrity` reports "AAPL",
because it compares the symbol-wide count (5) against the surviving row's
count (3). -/
theorem c9_integrity_counterexample :
    (c9Db.dailyCandles.filter (fun c => decide (c.provider = "finnhub"))).length = 2
    ∧ (c9Db.dailyCandles.filter (fun c => decide (c.provider = "alpha"))).length = 3
    ∧ c9Db.cacheMeta = [⟨"AAPL", "alpha", 20, 3⟩]
    ∧ verifyCacheIntegrity c9Db = ["AAPL"] :=
  ⟨rfl, rfl, rfl, rfl⟩

lemma foldl_push {α β : Type} (p : α → Prop) [DecidablePred p] (f : α → β) :
    ∀ (l : List α) (init : List β),
      l.foldl (fun acc e => if p e then acc ++ [f e] else acc) init
        = init ++ (l.filter (fun e => decide (p e))).map f := by
  intro l
  induction l with
  | nil => intro init; simp
  | cons a t ih =>
    intro init
    rw [List.foldl_cons]
    by_cases hp : p a
    · rw [if_pos hp, ih, List.filter_cons_of_pos (by simpa using hp), List.map_cons]
      simp
    · rw [if_neg hp, ih, List.filter_cons_of_neg (by simpa using hp)]

/-- C9 (amended). The integrity check reports exactly the symbols whose total
stored candle count — across all providers — differs from the `candleCount` of
the symbol's single metadata row, and it never modifies the cache (it is a pure
query of the database value). Metadata is keyed by symbol alone: after any
`cacheCandles` call there is exactly one metadata row for that symbol,
whichever provider wrote it. -/
theorem c9_integrity_amended (db : CacheDB) :
    verifyCacheIntegrity db
      = (db.cacheMeta.filter (fun e => decide
          ((db.dailyCandles.filter (fun c => decide (c.symbol = e.symbol))).length
            ≠ e.candleCount))).map CacheMeta.symbol
    ∧ ∀ (symbol provider : String) (candles : List DailyCandle) (now : Int),
        ((cacheCandles db symbol provider candles now).cacheMeta.filter
          (fun r => decide (r.symbol = toUpperCase symbol))).length = 1 := by
  constructor
  · exact (foldl_push
      (fun e => (db.dailyCandles.filter
        (fun c => decide (c.symbol = e.symbol))).length ≠ e.candleCount)
      CacheMeta.symbol db.cacheMeta []).trans (List.nil_append _)
  · intro symbol provider candles now
    show ((putCacheMeta _ ⟨toUpperCase symbol, provider, now, candles.length⟩).filter
      (fun r => decide (r.symbol = toUpperCase symbol))).length = 1
    rw [putCacheMeta, List.filter_append]
    have h1 : ∀ rows : List CacheMeta,
        (rows.filter (fun r => decide (¬ r.symbol
            = (⟨toUpperCase symbol, provider, now, candles.length⟩ : CacheMeta).symbol))).filter
          (fun r => decide (r.symbol = toUpperCase symbol)) = [] := by
      intro rows
      refine List.filter_eq_nil_iff.mpr ?_
      intro r hr
      have := (List.mem_filter.mp hr).2
      simp only [decide_eq_true_eq] at this ⊢
      exact this
    rw [h1]
    simp

/-- The externally observable state of the `usePortfolioHistory` hook:
the generation counter `fetchIdRef.current` plus the published React state
(`data`, `error`, `failedSymbols`, `isLoading`). The candle cache is shared
state outside this record; the claim concerns only the published result. -/
structure OrchestratorState where
  fetchId : Nat
  data : List PortfolioHistoryPoint
  error : Option String
  failedSymbols : List String
  isLoading : Bool
deriving DecidableEq, Repr

/-- The atomic blocks of `fetchHistoricalData` that touch published state, as
scheduled between awaited suspension points; JS runs each block to completion.

* `invoke` — lines 102-113: a new invocation begins: `++fetchIdRef.current`,
  `setIsLoading(true)`, `setError(null)`, `setFailedSymbols([])`. The starting
  invocation captures the new id as its `currentFetchId`.
* `commit myId history failed` — lines 176-199, success path: guarded by
  `currentFetchId === fetchIdRef.current`; publishes the failed list (only when
  non-empty), the computed history, clears the error, and the equally guarded
  `finally` clears `isLoading`. No await separates the guard from the writes.
* `commitError myId message` — lines 189-199, catch path: under the same
  guard, publishes the error, clears the data, and clears `isLoading`.

The per-symbol loop check (line 131) only abandons cache-and-network work; it
writes no published state, so it needs no event of its own. -/
inductive OrchestratorEvent
  | invoke
  | commit (myId : Nat) (history : List PortfolioHistoryPoint)
      (failed : List String)
  | commitError (myId : Nat) (message : String)
deriving DecidableEq, Repr

/-- The invocation a write event belongs to; `invoke` events belong to the new
invocation, which has no id yet. -/
def OrchestratorEvent.issuer : OrchestratorEvent → Option Nat
  | .invoke => none
  | .commit myId _ _ => some myId
  | .commitError myId _ => some myId

/-- One atomic block against the published state. -/
def orchestratorStep (st : OrchestratorState) :
    OrchestratorEvent → OrchestratorState
  | .invoke => ⟨st.fetchId + 1, st.data, none, [], true⟩
  | .commit myId history failed =>
    if myId = st.fetchId then
      ⟨st.fetchId, history, none,
        if failed = [] then st.failedSymbols else failed, false⟩
    else st
  | .commitError myId message =>
    if myId = st.fetchId then
      ⟨st.fetchId, [], some message, st.failedSymbols, false⟩
    else st

lemma orchestratorStep_fetchId_mono (st : OrchestratorState)
    (e : OrchestratorEvent) : st.fetchId ≤ (orchestratorStep st e).fetchId := by
  cases e with
  | invoke => exact Nat.le_succ _
  | commit myId history failed =>
    rw [orchestratorStep]
    by_cases h : myId = st.fetchId
    · rw [if_pos h]
    · rw [if_neg h]
  | commitError myId message =>
    rw [orchestratorStep]
    by_cases h : myId = st.fetchId
    · rw [if_pos h]
    · rw [if_neg h]

lemma orchestratorStep_stale (st : OrchestratorState) (e : OrchestratorEvent)
    (a : Nat) (hstale : a < st.fetchId) (hby : e.issuer = some a) :
    orchestratorStep st e = st := by
  cases e with
  | invoke => exact absurd hby (by simp [OrchestratorEvent.issuer])
  | commit myId history failed =>
    have : myId = a := by simpa [OrchestratorEvent.issuer] using hby
    subst this
    rw [orchestratorStep, if_neg (by omega)]
  | commitError myId message =>
    have : myId = a := by simpa [OrchestratorEvent.issuer] using hby
    subst this
    rw [orchestratorStep, if_neg (by omega)]

/-- C4. Supersession: once a newer invocation has started — so the invocation
holding id `a` is stale, `a < fetchId` (each `invoke` bumps the id, as the
third conjunct shows) — then in any subsequent interleaving of further
invocations and of guarded commits, every write event of invocation `a` leaves
the published state untouched: the trace is equivalent to the trace with all
of `a`'s events removed, and the generation id never decreases, so `a` can
never become current again. -/
theorem c4_supersession (st : OrchestratorState) (a : Nat)
    (tr : List OrchestratorEvent) (hstale : a < st.fetchId) :
    tr.foldl orchestratorStep st
      = (tr.filter (fun e => decide (¬ e.issuer = some a))).foldl
          orchestratorStep st
    ∧ st.fetchId ≤ (tr.foldl orchestratorStep st).fetchId
    ∧ ∀ st2 : OrchestratorState,
        (orchestratorStep st2 OrchestratorEvent.invoke).fetchId = st2.fetchId + 1 := by
  refine ⟨?_, ?_, fun st2 => rfl⟩
  · induction tr generalizing st with
    | nil => rfl
    | cons e rest ih =>
      by_cases hby : e.issuer = some a
      · rw [List.foldl_cons, List.filter_cons_of_neg (by simpa using hby),
          orchestratorStep_stale st e a hstale hby]
        exact ih st hstale
      · rw [List.foldl_cons, List.filter_cons_of_pos (by simpa using hby),
          List.foldl_cons]
        exact ih (orchestratorStep st e)
          (lt_of_lt_of_le hstale (orchestratorStep_fetchId_mono st e))
  · induction tr generalizing st with
    | nil => exact le_refl _
    | cons e rest ih =>
      rw [List.foldl_cons]
      exact le_trans (orchestratorStep_fetchId_mono st e)
        (ih (orchestratorStep st e)
          (lt_of_lt_of_le hstale (orchestratorStep_fetchId_mono st e)))

/-- Witness for C4 at a concrete interleaving: invocation 1 is stale in a state
with fetch id 2 (invocation 2 has started); its success commit, a fresh
invocation, and its error commit all leave the trace equivalent to the trace
without them. -/
theorem c4_supersession_witness :
    ([OrchestratorEvent.commit 1 [⟨19723, 5⟩] ["AAPL"], OrchestratorEvent.invoke,
        OrchestratorEvent.commitError 1 "network down"].foldl orchestratorStep
        ⟨2, [], none, [], true⟩)
      = (([OrchestratorEvent.commit 1 [⟨19723, 5⟩] ["AAPL"],
          OrchestratorEvent.invoke,
          OrchestratorEvent.commitError 1 "network down"].filter
            (fun e => decide (¬ e.issuer = some 1))).foldl orchestratorStep
          ⟨2, [], none, [], true⟩) :=
  (c4_supersession ⟨2, [], none, [], true⟩ 1
    [OrchestratorEvent.commit 1 [⟨19723, 5⟩] ["AAPL"], OrchestratorEvent.invoke,
      OrchestratorEvent.commitError 1 "network down"] (by norm_num)).1

end Stonks
